import Mathlib

/-!
Verification development for the CSP solver in `csp.py`.

The Python source is shallowly embedded as follows:

* A Python `dict` (which preserves insertion order, replaces the value of an
  existing key in place, and appends new keys at the end) is modelled as an
  association list `List (V × A)` together with the operations `lookupD`
  (indexing, `d[k]`, returning `none` where Python raises `KeyError`) and
  `setD` (assignment `d[k] = v`).
* A `CSP` instance holds the three fields of the Python class: `variables`,
  `domains` and `constraints`.
* Statements that can raise an exception are modelled with `Option`
  (for `KeyError` / `ValueError` crashes) via the `PyResult` wrapper where a
  run can either produce a value or raise.
* CPython's `for x in lst` iterates by index over the list object, so a
  `lst.remove(x)` executed inside the loop body shifts later elements one
  position down and makes the iteration skip the element after `x`.  The
  loops of `revise` and `backtrack` mutate the list they iterate, so the
  loops are embedded index-by-index (`reviseLoop`, `backtrackLoop`) exactly
  as CPython executes them, `remove` being `List.erase` (first occurrence).
* The worklist loop of `inference` and the recursion of `backtrack` are
  embedded with an explicit fuel argument (`none` = fuel exhausted); a
  separate theorem shows the fuel bound used by the wrappers suffices, so
  the wrappers compute exactly what the Python functions compute.
-/

set_option maxRecDepth 4000

/-- Outcome of running a piece of Python code: a value, or a raised exception
(`KeyError` / `ValueError`). -/
inductive PyResult (α : Type) where
  | ok : α → PyResult α
  | exn : PyResult α
deriving DecidableEq, Repr

section Model

variable {V D A : Type} [DecidableEq V] [DecidableEq D]

/-- Python dict indexing `d[key]`: the value stored at `key`, or `none` where
Python raises `KeyError`. -/
def lookupD : List (V × A) → V → Option A
  | [], _ => none
  | e :: rest, key => if key = e.1 then some e.2 else lookupD rest key

/-- Python dict assignment `d[key] = val`: replaces the value of an existing
key in place, appends a new key at the end. -/
def setD : List (V × A) → V → A → List (V × A)
  | [], key, val => [(key, val)]
  | e :: rest, key, val =>
      if key = e.1 then (key, val) :: rest else e :: setD rest key val

end Model

/-- The state of a `CSP` object from `csp.py`: `self.variables` (the field is
called `vars` here because `variables` is a reserved word in Lean),
`self.domains` and `self.constraints` (a dict of dicts of legal-pair lists). -/
structure CSP (V D : Type) where
  vars : List V
  domains : List (V × List D)
  constraints : List (V × List (V × List (D × D)))
deriving DecidableEq, Repr

section Model

variable {V D : Type} [DecidableEq V] [DecidableEq D]

/-- Assignment: the dict mapping each variable to its current list of legal
values (Python `assignment`, a deep copy of `self.domains`). -/
abbrev Asg (V D : Type) := List (V × List D)

/-- The constraint store `self.constraints`. -/
abbrev Cons (V D : Type) := List (V × List (V × List (D × D)))

/-- The empty CSP built by `CSP.__init__`. -/
def CSP.init : CSP V D := ⟨[], [], []⟩

/-- `CSP.add_variable(name, domain)` from `csp.py`: appends `name` to the
variable list, stores `domain`, and resets the constraint dict of `name`. -/
def add_variable (csp : CSP V D) (name : V) (domain : List D) : CSP V D :=
  { vars := csp.vars ++ [name]
    domains := setD csp.domains name domain
    constraints := setD csp.constraints name [] }

/-- `CSP.get_all_possible_pairs(a, b)`: the cross product in the nested-loop
order of `itertools.product`. -/
def get_all_possible_pairs {α β : Type} (a : List α) (b : List β) : List (α × β) :=
  a.flatMap (fun x => b.map (fun y => (x, y)))

/-- `CSP.get_all_arcs()`: every pair `(i, j)` such that `self.constraints[i]`
has the key `j`, in dict iteration order. -/
def get_all_arcs (cons : Cons V D) : List (V × V) :=
  cons.flatMap (fun e => e.2.map (fun f => (e.1, f.1)))

/-- `CSP.get_all_neighboring_arcs(var)`: the list
`[(i, var) for i in self.constraints[var]]`; `none` models the `KeyError`
raised when `var` has no entry in `self.constraints`. -/
def get_all_neighboring_arcs (cons : Cons V D) (var : V) : Option (List (V × V)) :=
  (lookupD cons var).map (fun m => m.map (fun f => (f.1, var)))

/-- `CSP.add_constraint_one_way(i, j, filter_function)`: initialises the pair
list of `(i, j)` to the full cross product if absent, then filters it;
`none` models the `KeyError` raised when `i` was never added as a variable
(or a domain is missing). -/
def add_constraint_one_way (csp : CSP V D) (i j : V) (f : D → D → Bool) :
    Option (CSP V D) :=
  match lookupD csp.constraints i with
  | none => none
  | some mi =>
    let base? : Option (List (D × D)) :=
      match lookupD mi j with
      | some l => some l
      | none =>
        match lookupD csp.domains i, lookupD csp.domains j with
        | some di, some dj => some (get_all_possible_pairs di dj)
        | _, _ => none
    match base? with
    | none => none
    | some base =>
      some { csp with
              constraints :=
                setD csp.constraints i
                  (setD mi j (base.filter (fun p => f p.1 p.2))) }

/-- `CSP.add_all_different_constraint(variables)`: declares the inequality
constraint one way for every ordered pair of distinct listed variables. -/
def add_all_different_constraint (csp : CSP V D) (vars : List V) :
    Option (CSP V D) :=
  (get_all_possible_pairs vars vars).foldl
    (fun acc p =>
      acc.bind (fun c =>
        if p.1 ≠ p.2 then
          add_constraint_one_way c p.1 p.2 (fun x y => decide (x ≠ y))
        else some c))
    (some csp)

/-- The body of the `for x in assignment[i]` loop of `CSP.revise`, embedded
index-by-index exactly as CPython iterates: `x` is read at position `idx` of
the current list, and `assignment[i].remove(x)` (here `List.erase`) shifts
the elements after `x` one position down before the index advances.
`sameVar` records whether `j` is `i` itself, in which case the Python
expression `assignment[j]` reads the list currently being mutated.
`dj?` is `assignment[j]` (`none` when `j` is not a key: Python raises
`KeyError` at the first iteration that evaluates it), and `pairs?` is
`self.constraints[i][j]` (`none` models the `KeyError` raised at the first
membership test when the constraint is undeclared).  Returns the `revised`
flag and the final contents of `assignment[i]`, or `none` for a crash.
The first `Nat` argument is a structural iteration bound: the index grows by
one per step and the list never grows, so the loop performs at most
`di.length - idx` further iterations and any bound above that is exact
(`reviseLoop_fuel_irrelevant` below); `revise` passes `di.length + 1`. -/
def reviseLoop (sameVar : Bool) (dj? : Option (List D))
    (pairs? : Option (List (D × D))) :
    Nat → Nat → List D → Bool → Option (Bool × List D)
  | 0, _, di, revised => some (revised, di)
  | fuel + 1, idx, di, revised =>
    if h : idx < di.length then
      let x := di.get ⟨idx, h⟩
      match (if sameVar then some di else dj?) with
      | none => none
      | some [] => reviseLoop sameVar dj? pairs? fuel (idx + 1) (di.erase x) true
      | some dj =>
        match pairs? with
        | none => none
        | some pairs =>
          if dj.any (fun y => decide ((x, y) ∈ pairs)) then
            reviseLoop sameVar dj? pairs? fuel (idx + 1) di revised
          else
            reviseLoop sameVar dj? pairs? fuel (idx + 1) (di.erase x) true
    else
      some (revised, di)

/-- `CSP.revise(assignment, i, j)`: prunes `assignment[i]` against
`assignment[j]` under `self.constraints[i][j]`, returning the `revised` flag
and the updated assignment; `none` models a `KeyError` crash. -/
def revise (cons : Cons V D) (asg : Asg V D) (i j : V) :
    Option (Bool × Asg V D) :=
  match lookupD asg i with
  | none => none
  | some di =>
    match reviseLoop (decide (i = j)) (lookupD asg j)
        ((lookupD cons i).bind (fun mi => lookupD mi j))
        (di.length + 1) 0 di false with
    | none => none
    | some (r, di2) => some (r, setD asg i di2)

/-- `CSP.inference(assignment, queue)` with an explicit fuel bound on the
number of worklist iterations: pops the first arc, runs `revise`, fails on
domain wipeout, and re-enqueues `(k, i)` for every `k` in
`self.constraints[i]` other than `j` when the domain of `i` changed.
`none` is fuel exhaustion; `some PyResult.exn` is a raised exception. -/
def inferenceFuel (cons : Cons V D) :
    Nat → Asg V D → List (V × V) → Option (PyResult (Bool × Asg V D))
  | 0, _, _ => none
  | _ + 1, asg, [] => some (PyResult.ok (true, asg))
  | fuel + 1, asg, (i, j) :: rest =>
    match revise cons asg i j with
    | none => some PyResult.exn
    | some (false, asg2) => inferenceFuel cons fuel asg2 rest
    | some (true, asg2) =>
      match lookupD asg2 i with
      | none => some PyResult.exn
      | some di =>
        if di.isEmpty then some (PyResult.ok (false, asg2))
        else
          match get_all_neighboring_arcs cons i with
          | none => some PyResult.exn
          | some nbrs =>
            inferenceFuel cons fuel asg2
              (rest ++ nbrs.filter (fun k => decide (k.1 ≠ j)))

/-- Total number of values over all domains of an assignment. -/
def totalSize (asg : Asg V D) : Nat := (asg.map (fun e => e.2.length)).sum

/-- Total number of inner constraint entries of the constraint store; an
upper bound for the number of arcs any one `revise` can re-enqueue. -/
def consSize (cons : Cons V D) : Nat := (cons.map (fun e => e.2.length)).sum

/-- Number of undecided variables of an assignment (value list longer than
one); a measure used in the proofs about `backtrack`. -/
def undecidedCount (asg : Asg V D) : Nat :=
  asg.countP (fun e => decide (1 < e.2.length))

/-- Fuel that provably suffices for `inferenceFuel` to drain its worklist. -/
def infFuelBound (cons : Cons V D) (asg : Asg V D) (queue : List (V × V)) : Nat :=
  totalSize asg * (consSize cons + 1) + queue.length + 1

/-- `CSP.inference(assignment, queue)`: the worklist run with the sufficient
fuel bound (the bound is proved sufficient below, so the fuel-exhaustion
branch is unreachable). -/
def inference (cons : Cons V D) (asg : Asg V D) (queue : List (V × V)) :
    PyResult (Bool × Asg V D) :=
  match inferenceFuel cons (infFuelBound cons asg queue) asg queue with
  | some r => r
  | none => PyResult.exn

/-- `CSP.select_unassigned_variable(assignment)`: the first variable whose
value list has length greater than one; `none` models Python's implicit
`return None` when every list has length at most one. -/
def select_unassigned_variable (asg : Asg V D) : Option V :=
  (asg.find? (fun e => decide (1 < e.2.length))).map (fun e => e.1)

/-- The local-consistency check of `CSP.backtrack` (the loop over
`otherVariable`): `mV?` is `self.constraints[variable]`, read lazily so a
missing key raises (`none`) only when an `otherVariable` distinct from
`variable` is reached, exactly as in Python.  Returns the final value of the
`consistent` flag, stopping early at the first rejecting neighbour. -/
def consistencyLoop (mV? : Option (List (V × List (D × D)))) (var : V)
    (value : D) : List (V × List D) → Option Bool
  | [] => some true
  | other :: rest =>
    if other.1 = var then consistencyLoop mV? var value rest
    else
      match mV? with
      | none => none
      | some mV =>
        match lookupD mV other.1 with
        | none => consistencyLoop mV? var value rest
        | some pairs =>
          if other.2.any (fun y => decide ((value, y) ∈ pairs)) then
            consistencyLoop mV? var value rest
          else some false

/-- Python truthiness of the value returned by a recursive `backtrack` call:
`False` is falsy, a dict is truthy exactly when it is non-empty. -/
def truthy (r : Option (Asg V D)) : Bool :=
  match r with
  | none => false
  | some a => !a.isEmpty

/-- The `for value in values:` loop of `CSP.backtrack`, embedded
index-by-index as CPython iterates the list object bound to `values`.
`aliased` records whether `assignment[variable]` is still that same list
object (true until line `assignment[variable] = [value]` rebinds the dict
entry to a fresh list); while aliased, the `remove` on line 170 mutates the
iterated list itself, shifting later candidates under the iterator.  After
rebinding, the line-170 `remove` acts on the current dict entry and raises
`ValueError` (modelled as `PyResult.exn`) when the value is absent.
`recur` is the recursive `backtrack` call.  Returns the returned value
(solution dict or `False`) together with the final state of this frame's
`assignment`.  The first `Nat` argument is a structural iteration bound as
in `reviseLoop` (`none` = bound exhausted, like recursion fuel);
`backtrackFuel` passes `values.length + 1`, which is exact since the index
grows by one per step and the candidate list never grows. -/
def backtrackLoop (cons : Cons V D)
    (recur : Asg V D → Option (PyResult (Option (Asg V D) × Asg V D)))
    (var : V) :
    Nat → Nat → List D → Asg V D → Bool →
      Option (PyResult (Option (Asg V D) × Asg V D))
  | 0, _, _, _, _ => none
  | fuel + 1, idx, values, asg, aliased =>
    if h : idx < values.length then
      let value := values.get ⟨idx, h⟩
      match consistencyLoop (lookupD cons var) var value asg with
      | none => some PyResult.exn
      | some true =>
        let asg1 := setD asg var [value]
        match inference cons asg1 (get_all_arcs cons) with
        | PyResult.exn => some PyResult.exn
        | PyResult.ok (infOk, asgCopy) =>
          if infOk then
            match recur asgCopy with
            | none => none
            | some PyResult.exn => some PyResult.exn
            | some (PyResult.ok (result, _)) =>
              if truthy result then some (PyResult.ok (result, asg1))
              else
                backtrackLoop cons recur var fuel (idx + 1) values
                  (setD asg1 var []) false
          else
            backtrackLoop cons recur var fuel (idx + 1) values
              (setD asg1 var []) false
      | some false =>
        if aliased then
          let values2 := values.erase value
          backtrackLoop cons recur var fuel (idx + 1) values2
            (setD asg var values2) true
        else
          match lookupD asg var with
          | none => some PyResult.exn
          | some cur =>
            if value ∈ cur then
              backtrackLoop cons recur var fuel (idx + 1) values
                (setD asg var (cur.erase value)) false
            else some PyResult.exn
    else
      some (PyResult.ok (none, asg))

/-- `CSP.backtrack(assignment)` with an explicit recursion-depth fuel
(`none` = fuel exhausted).  Returns the returned value together with the
final state of the frame's `assignment` dict. -/
def backtrackFuel (cons : Cons V D) :
    Nat → Asg V D → Option (PyResult (Option (Asg V D) × Asg V D))
  | 0, _ => none
  | fuel + 1, asg =>
    if asg.all (fun e => decide (e.2.length = 1)) then
      some (PyResult.ok (some asg, asg))
    else
      match select_unassigned_variable asg with
      | none => some PyResult.exn
      | some var =>
        match lookupD asg var with
        | none => some PyResult.exn
        | some values =>
          backtrackLoop cons (backtrackFuel cons fuel) var
            (values.length + 1) 0 values asg true

/-- Recursion fuel used by `backtracking_search`: each recursive call of
`backtrack` strictly decreases the total number of remaining domain values,
so this bound is never exhausted on the runs the claims are about. -/
def btFuel (csp : CSP V D) : Nat := totalSize csp.domains + 1

/-- `CSP.backtracking_search()`: deep-copies `self.domains` (value copy
here), runs `inference` on all arcs ignoring its boolean result, and calls
`backtrack`. -/
def backtracking_search (csp : CSP V D) : Option (PyResult (Option (Asg V D))) :=
  match inference csp.constraints csp.domains (get_all_arcs csp.constraints) with
  | PyResult.exn => some PyResult.exn
  | PyResult.ok (_, asg1) =>
    match backtrackFuel csp.constraints (btFuel csp) asg1 with
    | none => none
    | some PyResult.exn => some PyResult.exn
    | some (PyResult.ok (res, _)) => some (PyResult.ok res)

/-- Decidable arc-consistency check for one arc `(i, j)`: every remaining
value of `i` has at least one supporting value in the remaining domain of
`j` under the stored pair list `constraints[i][j]`. -/
def arcConsistentB (cons : Cons V D) (asg : Asg V D) (i j : V) : Bool :=
  match lookupD asg i, lookupD asg j,
      (lookupD cons i).bind (fun mi => lookupD mi j) with
  | some di, some dj, some pairs =>
      di.all (fun x => dj.any (fun y => decide ((x, y) ∈ pairs)))
  | _, _, _ => false

/-- Decidable check that a returned assignment of singleton domains
satisfies every declared arc: the pair of decided values of `(i, j)` is a
member of the stored pair list `constraints[i][j]`. -/
def solutionSatisfiesB (cons : Cons V D) (sol : Asg V D) : Bool :=
  (get_all_arcs cons).all (fun a =>
    match lookupD sol a.1, lookupD sol a.2,
        (lookupD cons a.1).bind (fun mi => lookupD mi a.2) with
    | some [x], some [y], some pairs => decide ((x, y) ∈ pairs)
    | _, _, _ => false)

end Model

/-- Three-variable instance with the asymmetric constraint graph
`{0 → 1, 1 → 2}`: domains `0 ↦ [1]`, `1 ↦ [1, 2]`, `2 ↦ [2]`, legal pairs
`constraints[0][1] = [(1, 1)]` and `constraints[1][2] = [(2, 2)]`.
Reachable through the construction API (`cspAsym3_build`). -/
def cspAsym3 : CSP Nat Nat :=
  ⟨[0, 1, 2],
   [(0, [1]), (1, [1, 2]), (2, [2])],
   [(0, [(1, [(1, 1)])]), (1, [(2, [(2, 2)])]), (2, [])]⟩

/-- The API call sequence producing `cspAsym3`. -/
def cspAsym3_build : Option (CSP Nat Nat) :=
  (add_constraint_one_way
      (add_variable (add_variable (add_variable CSP.init 0 [1]) 1 [1, 2]) 2 [2])
      0 1 (fun x y => decide (x = 1) && decide (y = 1))).bind
    (fun c => add_constraint_one_way c 1 2 (fun x y => decide (x = y)))

/-- Two-variable infeasible instance: domains `{1}`, `{1}` and the
inequality constraint declared from variable 0 to variable 1, leaving the
stored pair list empty.  Reachable through the API (`cspInfeasible_build`). -/
def cspInfeasible : CSP Nat Nat :=
  ⟨[0, 1], [(0, [1]), (1, [1])], [(0, [(1, [])]), (1, [])]⟩

/-- The API call sequence producing `cspInfeasible`. -/
def cspInfeasible_build : Option (CSP Nat Nat) :=
  add_constraint_one_way (add_variable (add_variable CSP.init 0 [1]) 1 [1])
    0 1 (fun x y => decide (x ≠ y))

/-- Three-variable satisfiable instance used against the candidate loop of
`backtrack`: domains `0 ↦ [1, 2]`, `1 ↦ [1, 2]`, `2 ↦ [2]`, legal pairs
`constraints[0][1] = [(1, 1), (2, 1), (2, 2)]` and
`constraints[1][2] = [(2, 2)]`.  Reachable through the API
(`cspSkip_build`); the assignment `0 ↦ 2, 1 ↦ 2, 2 ↦ 2` satisfies every
declared constraint. -/
def cspSkip : CSP Nat Nat :=
  ⟨[0, 1, 2],
   [(0, [1, 2]), (1, [1, 2]), (2, [2])],
   [(0, [(1, [(1, 1), (2, 1), (2, 2)])]), (1, [(2, [(2, 2)])]), (2, [])]⟩

/-- The API call sequence producing `cspSkip`. -/
def cspSkip_build : Option (CSP Nat Nat) :=
  (add_constraint_one_way
      (add_variable (add_variable (add_variable CSP.init 0 [1, 2]) 1 [1, 2]) 2 [2])
      0 1 (fun x y => (decide (x = 1) && decide (y = 1)) || decide (x = 2))).bind
    (fun c => add_constraint_one_way c 1 2 (fun x y => decide (x = y)))

/-- Two-variable instance with a single one-way constraint `0 → 1`
(pair list `[(1, 1)]`), used against `get_all_neighboring_arcs`.
Reachable through the API (`cspOneWay_build`). -/
def cspOneWay : CSP Nat Nat :=
  ⟨[0, 1], [(0, [1]), (1, [1])], [(0, [(1, [(1, 1)])]), (1, [])]⟩

/-- The API call sequence producing `cspOneWay`. -/
def cspOneWay_build : Option (CSP Nat Nat) :=
  add_constraint_one_way (add_variable (add_variable CSP.init 0 [1]) 1 [1])
    0 1 (fun _ _ => true)

/-- Two-variable instance with no declared constraints: domains
`0 ↦ [5, 6]` and `1 ↦ [7]`.  Reachable through the API (`cspFree_build`). -/
def cspFree : CSP Nat Nat :=
  ⟨[0, 1], [(0, [5, 6]), (1, [7])], [(0, []), (1, [])]⟩

/-- The API call sequence producing `cspFree`. -/
def cspFree_build : CSP Nat Nat :=
  add_variable (add_variable CSP.init 0 [5, 6]) 1 [7]

/-!
Heap-level embedding of the search, used for the frame property of
`backtracking_search`.  Python mutates list objects in place and relies on
`copy.deepcopy` to keep `self.domains` and sibling branches isolated, so
object identity matters for that claim.  Here every Python list lives in an
explicit store (`HStore`), a list object is a reference (its index in the
store), an assignment dict maps variables to references (`HAsg`), `deepcopyH`
allocates fresh references, and every `remove`/rebinding writes through a
reference.  The functions mirror the same source lines as the value-level
model above; a single fuel argument bounds all loops and recursion
(`HRes.out` = fuel exhausted), since only the store writes matter here. -/

/-- The store of Python list objects: index = object identity. -/
abbrev HStore (D : Type) := List (List D)

/-- An assignment dict at heap level: variable to list-object reference. -/
abbrev HAsg (V : Type) := List (V × Nat)

section HeapModel

variable {V D : Type} [DecidableEq V] [DecidableEq D]

/-- Read the list object at reference `r`. -/
def readS (st : HStore D) (r : Nat) : List D := st.getD r []

/-- Overwrite the list object at reference `r` (an in-place list mutation). -/
def writeS (st : HStore D) (r : Nat) (l : List D) : HStore D := st.set r l

/-- Allocate a fresh list object, returning its reference. -/
def allocS (st : HStore D) (l : List D) : Nat × HStore D := (st.length, st ++ [l])

/-- Outcome of a heap-level run: value, raised exception, or fuel exhausted. -/
inductive HRes (α : Type) where
  | ok : α → HRes α
  | exn : HRes α
  | out : HRes α
deriving DecidableEq, Repr

/-- `copy.deepcopy(assignment)`: a fresh dict whose every entry references a
freshly allocated copy of the original list object. -/
def deepcopyH : HAsg V → HStore D → HAsg V × HStore D
  | [], st => ([], st)
  | e :: rest, st =>
    ((e.1, st.length) :: (deepcopyH rest (st ++ [readS st e.2])).1,
      (deepcopyH rest (st ++ [readS st e.2])).2)

/-- Heap-level `for x in assignment[i]` loop of `CSP.revise`: the iterator
holds the list object `ri` and an index, re-reading the object each step, so
the in-place `remove` shifts later elements under the iterator; when `i = j`
the read of `assignment[j]` sees the mutated object, since both are reads of
the store.  `pairs?` is `self.constraints[i][j]`, consulted only when a
membership test is reached. -/
def reviseLoopH (hasg : HAsg V) (j : V) (pairs? : Option (List (D × D)))
    (ri : Nat) : Nat → Nat → Bool → HStore D → HRes Bool × HStore D
  | 0, _, _, st => (HRes.out, st)
  | fuel + 1, idx, revised, st =>
    if h : idx < (readS st ri).length then
      match lookupD hasg j with
      | none => (HRes.exn, st)
      | some rj =>
        if (readS st rj).isEmpty then
          reviseLoopH hasg j pairs? ri fuel (idx + 1) true
            (writeS st ri ((readS st ri).erase ((readS st ri).get ⟨idx, h⟩)))
        else
          match pairs? with
          | none => (HRes.exn, st)
          | some pairs =>
            if (readS st rj).any
                (fun y => decide (((readS st ri).get ⟨idx, h⟩, y) ∈ pairs)) then
              reviseLoopH hasg j pairs? ri fuel (idx + 1) revised st
            else
              reviseLoopH hasg j pairs? ri fuel (idx + 1) true
                (writeS st ri ((readS st ri).erase ((readS st ri).get ⟨idx, h⟩)))
    else (HRes.ok revised, st)

/-- Heap-level `CSP.revise(assignment, i, j)`. -/
def reviseH (cons : Cons V D) (hasg : HAsg V) (i j : V) (st : HStore D)
    (fuel : Nat) : HRes Bool × HStore D :=
  match lookupD hasg i with
  | none => (HRes.exn, st)
  | some ri =>
    reviseLoopH hasg j ((lookupD cons i).bind (fun mi => lookupD mi j)) ri
      fuel 0 false st

/-- Heap-level `CSP.inference(assignment, queue)`: same worklist as the
value-level model, with all domain reads and prunes going through the
store. -/
def inferenceH (cons : Cons V D) (hasg : HAsg V) :
    Nat → List (V × V) → HStore D → HRes Bool × HStore D
  | 0, _, st => (HRes.out, st)
  | fuel + 1, queue, st =>
    match queue with
    | [] => (HRes.ok true, st)
    | (i, j) :: rest =>
      match reviseH cons hasg i j st fuel with
      | (HRes.exn, st1) => (HRes.exn, st1)
      | (HRes.out, st1) => (HRes.out, st1)
      | (HRes.ok revised, st1) =>
        if revised then
          match lookupD hasg i with
          | none => (HRes.exn, st1)
          | some ri =>
            if (readS st1 ri).isEmpty then (HRes.ok false, st1)
            else
              match get_all_neighboring_arcs cons i with
              | none => (HRes.exn, st1)
              | some nbrs =>
                inferenceH cons hasg fuel
                  (rest ++ nbrs.filter (fun k => decide (k.1 ≠ j))) st1
        else inferenceH cons hasg fuel rest st1

/-- Heap-level local-consistency check of `CSP.backtrack` (reads only). -/
def consistencyLoopH (mV? : Option (List (V × List (D × D)))) (var : V)
    (value : D) (st : HStore D) : HAsg V → Option Bool
  | [] => some true
  | other :: rest =>
    if other.1 = var then consistencyLoopH mV? var value st rest
    else
      match mV? with
      | none => none
      | some mV =>
        match lookupD mV other.1 with
        | none => consistencyLoopH mV? var value st rest
        | some pairs =>
          if (readS st other.2).any (fun y => decide ((value, y) ∈ pairs)) then
            consistencyLoopH mV? var value st rest
          else some false

/-- Line 170 of `csp.py`, `assignment[variable].remove(value)`: reads the
list object currently bound to `var` in the dict, removes the first
occurrence of `value` in place (raising `ValueError` when absent), then
continues the candidate loop via `k` on the mutated store. -/
def removeThenH (hasg : HAsg V) (var : V) (value : D) (st : HStore D)
    (k : HStore D → HRes (Option (HAsg V)) × HStore D) :
    HRes (Option (HAsg V)) × HStore D :=
  match lookupD hasg var with
  | none => (HRes.exn, st)
  | some rv =>
    if value ∈ readS st rv then
      k (writeS st rv ((readS st rv).erase value))
    else (HRes.exn, st)

/-- Heap-level `for value in values:` loop of `CSP.backtrack`: `valRef` is
the list object bound to `values`, re-read from the store each iteration as
the CPython iterator does, while `value` is saved before the body runs; the
rebinding `assignment[variable] = [value]` allocates a fresh object
(reference `st.length`), after which the line-170 `remove` acts on the
current dict entry while the iterator keeps walking the object `valRef` —
the aliasing of the Python code arises from the store itself. -/
def backtrackLoopH (cons : Cons V D)
    (recur : HAsg V → HStore D → HRes (Option (HAsg V)) × HStore D)
    (var : V) (valRef : Nat) (infFuel : Nat) :
    Nat → Nat → HAsg V → HStore D → HRes (Option (HAsg V)) × HStore D
  | 0, _, _, st => (HRes.out, st)
  | fuel + 1, idx, hasg, st =>
    if h : idx < (readS st valRef).length then
      match consistencyLoopH (lookupD cons var) var
          ((readS st valRef).get ⟨idx, h⟩) st hasg with
      | none => (HRes.exn, st)
      | some false =>
        removeThenH hasg var ((readS st valRef).get ⟨idx, h⟩) st
          (fun st2 =>
            backtrackLoopH cons recur var valRef infFuel fuel (idx + 1) hasg st2)
      | some true =>
        match inferenceH cons
            (deepcopyH (setD hasg var st.length)
              (st ++ [[(readS st valRef).get ⟨idx, h⟩]])).1
            infFuel (get_all_arcs cons)
            (deepcopyH (setD hasg var st.length)
              (st ++ [[(readS st valRef).get ⟨idx, h⟩]])).2 with
        | (HRes.exn, st3) => (HRes.exn, st3)
        | (HRes.out, st3) => (HRes.out, st3)
        | (HRes.ok infOk, st3) =>
          if infOk then
            match recur (deepcopyH (setD hasg var st.length)
                (st ++ [[(readS st valRef).get ⟨idx, h⟩]])).1 st3 with
            | (HRes.exn, st4) => (HRes.exn, st4)
            | (HRes.out, st4) => (HRes.out, st4)
            | (HRes.ok result, st4) =>
              if (match result with
                  | some d => !d.isEmpty
                  | none => false) then
                (HRes.ok result, st4)
              else
                removeThenH (setD hasg var st.length) var
                  ((readS st valRef).get ⟨idx, h⟩) st4
                  (fun st5 =>
                    backtrackLoopH cons recur var valRef infFuel fuel (idx + 1)
                      (setD hasg var st.length) st5)
          else
            removeThenH (setD hasg var st.length) var
              ((readS st valRef).get ⟨idx, h⟩) st3
              (fun st5 =>
                backtrackLoopH cons recur var valRef infFuel fuel (idx + 1)
                  (setD hasg var st.length) st5)
    else (HRes.ok none, st)

/-- Heap-level `CSP.backtrack(assignment)`. -/
def backtrackH (cons : Cons V D) :
    Nat → HAsg V → HStore D → HRes (Option (HAsg V)) × HStore D
  | 0, _, st => (HRes.out, st)
  | fuel + 1, hasg, st =>
    if hasg.all (fun e => decide ((readS st e.2).length = 1)) then
      (HRes.ok (some hasg), st)
    else
      match (hasg.find? (fun e => decide (1 < (readS st e.2).length))).map
          (fun e => e.1) with
      | none => (HRes.exn, st)
      | some var =>
        match lookupD hasg var with
        | none => (HRes.exn, st)
        | some valRef =>
          backtrackLoopH cons (backtrackH cons fuel) var valRef fuel fuel 0 hasg st

/-- Heap-level `CSP.backtracking_search()`: `domRefs` is `self.domains`, a
dict of references to the instance's own domain-list objects living in the
store; the search starts by deep-copying it and never touches the originals
again. -/
def backtracking_searchH (cons : Cons V D) (domRefs : HAsg V) (st : HStore D)
    (fuel : Nat) : HRes (Option (HAsg V)) × HStore D :=
  match inferenceH cons (deepcopyH domRefs st).1 fuel (get_all_arcs cons)
      (deepcopyH domRefs st).2 with
  | (HRes.exn, st2) => (HRes.exn, st2)
  | (HRes.out, st2) => (HRes.out, st2)
  | (HRes.ok _, st2) =>
    match backtrackH cons fuel (deepcopyH domRefs st).1 st2 with
    | (HRes.ok r, st3) => (HRes.ok r, st3)
    | (HRes.exn, st3) => (HRes.exn, st3)
    | (HRes.out, st3) => (HRes.out, st3)

/-- Store refinement: every object at a reference below `n` is unchanged and
the store only grew (new objects are appended). -/
def presFrom (n : Nat) (st st2 : HStore D) : Prop :=
  (∀ r < n, readS st2 r = readS st r) ∧ st.length ≤ st2.length

/-- All references of an assignment dict lie at or above `n`: they were
allocated after the point where the store had `n` objects. -/
def okRefs (n : Nat) (hasg : HAsg V) : Prop :=
  ∀ e ∈ hasg, n ≤ e.2

end HeapModel

/-!
Theorems.  First the basic dictionary lemmas, then the reachability of the
concrete instances through the construction API, then the claim theorems.
-/

section DictLemmas

variable {V D A : Type} [DecidableEq V] [DecidableEq D]

theorem lookupD_setD_self (d : List (V × A)) (k : V) (v : A) :
    lookupD (setD d k v) k = some v := by
  induction d with
  | nil => simp [setD, lookupD]
  | cons e rest ih =>
    by_cases h : k = e.1
    · simp [setD, h, lookupD]
    · simp [setD, h, lookupD, ih]

theorem lookupD_setD_ne (d : List (V × A)) (k q : V) (v : A) (h : q ≠ k) :
    lookupD (setD d k v) q = lookupD d q := by
  induction d with
  | nil => simp [setD, lookupD, h]
  | cons e rest ih =>
    by_cases hk : k = e.1
    · subst hk
      simp [setD, lookupD, h]
    · simp only [setD, if_neg hk, lookupD]
      by_cases hq : q = e.1
      · simp [hq]
      · simp [hq, ih]

theorem lookupD_mem {d : List (V × A)} {k : V} {v : A}
    (h : lookupD d k = some v) : (k, v) ∈ d := by
  induction d with
  | nil => simp [lookupD] at h
  | cons e rest ih =>
    by_cases hk : k = e.1
    · simp only [lookupD, if_pos hk, Option.some.injEq] at h
      subst hk
      subst h
      exact List.mem_cons_self _ _
    · simp only [lookupD, if_neg hk] at h
      exact List.mem_cons_of_mem _ (ih h)

end DictLemmas

theorem cspAsym3_reachable : cspAsym3_build = some cspAsym3 := by rfl

theorem cspInfeasible_reachable : cspInfeasible_build = some cspInfeasible := by rfl

theorem cspSkip_reachable : cspSkip_build = some cspSkip := by rfl

theorem cspOneWay_reachable : cspOneWay_build = some cspOneWay := by rfl

/-- C1: on `cspAsym3`, `inference` called with the full declared arc set
returns `True`, yet the declared arc `(0, 1)` is not arc-consistent
afterwards: the remaining value `1` of variable `0` has no supporting value
in the remaining domain `[2]` of variable `1` under
`constraints[0][1] = [(1, 1)]`.  This refutes the claimed postcondition:
when `revise` shrinks a domain, `get_all_neighboring_arcs` re-enqueues the
outgoing arcs of the shrunk variable instead of the incoming ones, so the
arc `(0, 1)` is never re-examined after variable `1` loses the value `1`. -/
theorem c1_inference_breaks_arc_consistency :
    inference cspAsym3.constraints cspAsym3.domains
        (get_all_arcs cspAsym3.constraints)
      = PyResult.ok (true, [(0, [1]), (1, [2]), (2, [2])]) ∧
    (0, 1) ∈ get_all_arcs cspAsym3.constraints ∧
    arcConsistentB cspAsym3.constraints [(0, [1]), (1, [2]), (2, [2])] 0 1
      = false := by
  refine ⟨by rfl, by decide, by rfl⟩

/-- C2: on `cspAsym3`, `backtracking_search()` returns the complete
assignment `0 ↦ [1], 1 ↦ [2], 2 ↦ [2]`, which violates the declared
constraint on the arc `(0, 1)`: the decided pair `(1, 2)` is not in the
stored legal pair list `[(1, 1)]`.  The returned assignment is accepted by
the base case of `backtrack` without any constraint check, and the
preceding `inference` run failed to restore arc consistency (see C1). -/
theorem c2_search_returns_violating_assignment :
    backtracking_search cspAsym3
      = some (PyResult.ok (some [(0, [1]), (1, [2]), (2, [2])])) ∧
    (0, 1) ∈ get_all_arcs cspAsym3.constraints ∧
    solutionSatisfiesB cspAsym3.constraints [(0, [1]), (1, [2]), (2, [2])]
      = false := by
  refine ⟨by rfl, by decide, by rfl⟩

/-- C3: on the two-variable instance with domains `{1}`, `{1}` and a
declared inequality constraint, `backtracking_search()` raises an uncaught
exception instead of returning `False`: the ignored `inference` call wipes
out the domain of variable `0`, `select_unassigned_variable` then returns
`None` (no domain has length greater than one), and `backtrack` crashes on
`assignment[None]` with a `KeyError`. -/
theorem c3_search_crashes_on_infeasible_instance :
    backtracking_search cspInfeasible = some PyResult.exn := by rfl

/-- C4: on `cspSkip`, `backtrack` selects variable `0` with candidate list
`[1, 2]`; candidate `1` fails the local consistency check and line 170
removes it from the list being iterated, which shifts candidate `2` under
the iterator so that it is never tried.  The loop exits with the variable's
domain still holding `[2]` (not empty), and the search reports failure even
though deciding every variable to `2` satisfies every declared constraint. -/
theorem c4_backtrack_skips_candidate_and_leaves_domain_nonempty :
    backtracking_search cspSkip = some (PyResult.ok none) ∧
    backtrackFuel cspSkip.constraints (btFuel cspSkip)
        [(0, [1, 2]), (1, [2]), (2, [2])]
      = some (PyResult.ok (none, [(0, [2]), (1, [2]), (2, [2])])) ∧
    solutionSatisfiesB cspSkip.constraints [(0, [2]), (1, [2]), (2, [2])]
      = true := by
  refine ⟨by rfl, by rfl, by rfl⟩

/-- C5: `inference` is not idempotent.  On `cspAsym3` the first run over the
full arc set returns `True` leaving the assignment `0 ↦ [1], 1 ↦ [2],
2 ↦ [2]`, which is not a fixed point: a second run with the same arc set
removes the value `1` of variable `0`, wipes out its domain, and returns
`False` with a different assignment state. -/
theorem c5_inference_not_idempotent :
    inference cspAsym3.constraints cspAsym3.domains
        (get_all_arcs cspAsym3.constraints)
      = PyResult.ok (true, [(0, [1]), (1, [2]), (2, [2])]) ∧
    inference cspAsym3.constraints [(0, [1]), (1, [2]), (2, [2])]
        (get_all_arcs cspAsym3.constraints)
      = PyResult.ok (false, [(0, []), (1, [2]), (2, [2])]) := by
  refine ⟨by rfl, by rfl⟩

/-- C6 counterexample: `add_variable` with an already-registered name does
not fail: on a CSP holding variable `0` with domain `[1, 2]`, adding `0`
again with domain `[3]` silently appends `0` a second time to the variable
list, overwrites the stored domain with `[3]`, and resets the constraint
entry — no error of any kind is raised. -/
theorem c6_add_variable_duplicate_counterexample :
    add_variable (add_variable CSP.init 0 [1, 2]) 0 [3]
      = ({ vars := [0, 0], domains := [(0, [3])], constraints := [(0, [])] }
          : CSP Nat Nat) := by rfl

/-- C6 amended: calling `add_variable(name, domain)` when `name` is already
registered never fails; it appends `name` again to `self.variables`,
replaces `self.domains[name]` by the new domain, and resets
`self.constraints[name]` to the empty dict. -/
theorem c6_add_variable_duplicate_overwrites {V D : Type} [DecidableEq V]
    [DecidableEq D] (csp : CSP V D) (name : V) (domain : List D)
    (_h : name ∈ csp.vars) :
    (add_variable csp name domain).vars = csp.vars ++ [name] ∧
    lookupD (add_variable csp name domain).domains name = some domain ∧
    lookupD (add_variable csp name domain).constraints name = some [] := by
  refine ⟨rfl, lookupD_setD_self _ _ _, lookupD_setD_self _ _ _⟩

theorem c6_add_variable_duplicate_overwrites_witness :
    (0 : Nat) ∈ (add_variable CSP.init 0 [1, 2] : CSP Nat Nat).vars ∧
    ((add_variable (add_variable CSP.init 0 [1, 2]) 0 ([3] : List Nat)).vars
        = (add_variable CSP.init 0 [1, 2] : CSP Nat Nat).vars ++ [0] ∧
      lookupD (add_variable (add_variable CSP.init 0 [1, 2]) 0
          ([3] : List Nat)).domains 0 = some [3] ∧
      lookupD (add_variable (add_variable CSP.init 0 [1, 2]) 0
          ([3] : List Nat)).constraints 0 = some []) :=
  ⟨by decide, c6_add_variable_duplicate_overwrites _ 0 [3] (by decide)⟩

/-- C7 counterexample: on `cspOneWay` a constraint is declared from `0` into
`1` (`constraints[0][1]` exists), yet `get_all_neighboring_arcs(1)` returns
the empty list rather than `[(0, 1)]`, and `get_all_neighboring_arcs(0)`
returns `[(1, 0)]` although no constraint is declared from `1` into `0`. -/
theorem c7_neighboring_arcs_counterexample :
    ((lookupD cspOneWay.constraints 0).bind (fun m => lookupD m 1)).isSome
      = true ∧
    get_all_neighboring_arcs cspOneWay.constraints 1 = some [] ∧
    get_all_neighboring_arcs cspOneWay.constraints 0 = some [(1, 0)] ∧
    ((lookupD cspOneWay.constraints 1).bind (fun m => lookupD m 0)).isSome
      = false := by
  refine ⟨by rfl, by rfl, by rfl, by rfl⟩

/-- C7 amended: for a variable `var` with a constraint entry
(`constraints[var]` exists, otherwise the call raises `KeyError`),
`get_all_neighboring_arcs(var)` returns exactly the arcs `(k, var)` for the
keys `k` of `constraints[var]` — the variables `var` has an *outgoing*
declared constraint to, one arc per such key, in storage order. -/
theorem c7_neighboring_arcs_are_outgoing {V D : Type} [DecidableEq V]
    [DecidableEq D] (cons : Cons V D) (var : V)
    (m : List (V × List (D × D))) (h : lookupD cons var = some m) :
    get_all_neighboring_arcs cons var = some (m.map (fun e => (e.1, var))) ∧
    ∀ k : V, (k, var) ∈ m.map (fun e => (e.1, var)) ↔ k ∈ m.map Prod.fst := by
  constructor
  · simp [get_all_neighboring_arcs, h]
  · intro k
    constructor
    · intro hk
      rcases List.mem_map.mp hk with ⟨e, he, hke⟩
      exact List.mem_map.mpr ⟨e, he, congrArg Prod.fst hke⟩
    · intro hk
      rcases List.mem_map.mp hk with ⟨e, he, hke⟩
      exact List.mem_map.mpr ⟨e, he, by rw [hke]⟩

theorem c7_neighboring_arcs_are_outgoing_witness :
    lookupD cspOneWay.constraints 0 = some [(1, [(1, 1)])] ∧
    (get_all_neighboring_arcs cspOneWay.constraints 0
        = some ([(1, [(1, 1)])].map (fun e => (e.1, (0 : Nat)))) ∧
      ∀ k : Nat, (k, (0 : Nat)) ∈ [((1 : Nat), [((1 : Nat), (1 : Nat))])].map
          (fun e => (e.1, (0 : Nat))) ↔
        k ∈ [((1 : Nat), [((1 : Nat), (1 : Nat))])].map Prod.fst) :=
  ⟨by rfl, c7_neighboring_arcs_are_outgoing cspOneWay.constraints 0 _ (by rfl)⟩


set_option linter.unusedSectionVars false

section TerminationLemmas

variable {V D : Type} [DecidableEq V] [DecidableEq D]

theorem totalSize_cons (e : V × List D) (rest : Asg V D) :
    totalSize (e :: rest) = e.2.length + totalSize rest := by
  simp [totalSize]

theorem consSize_cons (e : V × List (V × List (D × D))) (rest : Cons V D) :
    consSize (e :: rest) = e.2.length + consSize rest := by
  simp [consSize]

/-- Combined behaviour of the `revise` loop: the list never grows, the
`revised` flag is monotone, a `false` result means the list is untouched,
and a fresh `true` result means the list strictly shrank. -/
theorem reviseLoop_spec (sameVar : Bool) (dj? : Option (List D))
    (pairs? : Option (List (D × D))) :
    ∀ (fuel idx : Nat) (di : List D) (revised r : Bool) (l : List D),
      reviseLoop sameVar dj? pairs? fuel idx di revised = some (r, l) →
      l.length ≤ di.length ∧ (revised = true → r = true) ∧
      (r = false → l = di) ∧
      (revised = false → r = true → l.length < di.length) := by
  intro fuel
  induction fuel with
  | zero =>
    intro idx di revised r l h
    rw [reviseLoop] at h
    simp only [Option.some.injEq, Prod.mk.injEq] at h
    obtain ⟨hr, hl⟩ := h
    subst hr; subst hl
    refine ⟨le_refl _, fun h => h, fun _ => rfl, fun h1 h2 => ?_⟩
    rw [h1] at h2; cases h2
  | succ fuel ih =>
    intro idx di revised r l h
    rw [reviseLoop] at h
    split at h
    case isTrue hlt =>
      simp only [] at h
      split at h
      · cases h
      · obtain ⟨ha, hb, -, -⟩ := ih _ _ _ _ _ h
        have hr := hb rfl
        subst hr
        have hx : di.get ⟨idx, hlt⟩ ∈ di := di.get_mem _ _
        have hel := List.length_erase_of_mem hx
        refine ⟨by omega, fun _ => rfl, fun hc2 => Bool.noConfusion hc2,
          fun _ _ => by omega⟩
      · split at h
        · cases h
        · split at h
          · exact ih _ _ _ _ _ h
          · obtain ⟨ha, hb, -, -⟩ := ih _ _ _ _ _ h
            have hr := hb rfl
            subst hr
            have hx : di.get ⟨idx, hlt⟩ ∈ di := di.get_mem _ _
            have hel := List.length_erase_of_mem hx
            refine ⟨by omega, fun _ => rfl, fun hc2 => Bool.noConfusion hc2,
              fun _ _ => by omega⟩
    case isFalse hlt =>
      simp only [Option.some.injEq, Prod.mk.injEq] at h
      obtain ⟨hr, hl⟩ := h
      subst hr; subst hl
      refine ⟨le_refl _, fun h => h, fun _ => rfl, fun h1 h2 => ?_⟩
      rw [h1] at h2; cases h2

theorem setD_lookup_self_eq {asg : Asg V D} {i : V} {di : List D}
    (h : lookupD asg i = some di) : setD asg i di = asg := by
  induction asg with
  | nil => simp [lookupD] at h
  | cons e rest ihr =>
    by_cases hk : i = e.1
    · rw [lookupD, if_pos hk, Option.some.injEq] at h
      rw [setD, if_pos hk]
      subst hk
      rw [← h]
    · rw [lookupD, if_neg hk] at h
      rw [setD, if_neg hk, ihr h]

theorem totalSize_setD {asg : Asg V D} {i : V} {di : List D} (l : List D)
    (h : lookupD asg i = some di) :
    totalSize (setD asg i l) + di.length = totalSize asg + l.length := by
  induction asg with
  | nil => simp [lookupD] at h
  | cons e rest ihr =>
    by_cases hk : i = e.1
    · rw [lookupD, if_pos hk, Option.some.injEq] at h
      rw [setD, if_pos hk, totalSize_cons, totalSize_cons, h]
      show l.length + totalSize rest + di.length = di.length + totalSize rest + l.length
      omega
    · rw [lookupD, if_neg hk] at h
      rw [setD, if_neg hk, totalSize_cons, totalSize_cons]
      have := ihr h
      omega

theorem consSize_lookup_le {cons : Cons V D} {i : V}
    {mi : List (V × List (D × D))} (h : lookupD cons i = some mi) :
    mi.length ≤ consSize cons := by
  induction cons with
  | nil => simp [lookupD] at h
  | cons e rest ihr =>
    by_cases hk : i = e.1
    · rw [lookupD, if_pos hk, Option.some.injEq] at h
      rw [consSize_cons, ← h]
      omega
    · rw [lookupD, if_neg hk] at h
      rw [consSize_cons]
      have := ihr h
      omega

/-- `revise` either reports no change and leaves the assignment equal, or
reports a change and strictly decreases the total number of domain values. -/
theorem revise_spec {cons : Cons V D} {asg : Asg V D} {i j : V} {r : Bool}
    {asg2 : Asg V D} (h : revise cons asg i j = some (r, asg2)) :
    (r = false → asg2 = asg) ∧ (r = true → totalSize asg2 < totalSize asg) := by
  rw [revise] at h
  split at h
  · cases h
  next di hli =>
    split at h
    · cases h
    next r0 di2 hrl =>
      simp only [Option.some.injEq, Prod.mk.injEq] at h
      obtain ⟨hr, ha⟩ := h
      subst hr; subst ha
      obtain ⟨hle, -, hfalse, htrue⟩ := reviseLoop_spec _ _ _ _ _ _ _ _ _ hrl
      constructor
      · intro hr0
        rw [hfalse hr0]
        exact setD_lookup_self_eq hli
      · intro hr0
        have hlt := htrue rfl hr0
        have hts := totalSize_setD di2 hli
        omega

/-- More fuel never changes the result of `inferenceFuel` once it
completes. -/
theorem inferenceFuel_mono (cons : Cons V D) :
    ∀ (n m : Nat) (asg : Asg V D) (q : List (V × V)), n ≤ m →
      (inferenceFuel cons n asg q).isSome = true →
      inferenceFuel cons m asg q = inferenceFuel cons n asg q := by
  intro n
  induction n with
  | zero =>
    intro m asg q hnm hs
    rw [inferenceFuel] at hs
    cases hs
  | succ n ih =>
    intro m asg q hnm hs
    obtain ⟨m2, rfl⟩ : ∃ m2, m = m2 + 1 := ⟨m - 1, by omega⟩
    cases q with
    | nil => rw [inferenceFuel, inferenceFuel]
    | cons a rest =>
      obtain ⟨i, j⟩ := a
      rw [inferenceFuel] at hs
      rw [inferenceFuel, inferenceFuel]
      cases hrv : revise cons asg i j with
      | none => simp only [hrv]
      | some p =>
        obtain ⟨r, asg2⟩ := p
        cases r with
        | false =>
          simp only [hrv] at hs ⊢
          exact ih m2 asg2 rest (by omega) hs
        | true =>
          simp only [hrv] at hs ⊢
          cases hl : lookupD asg2 i with
          | none => simp only [hl]
          | some di =>
            simp only [hl] at hs ⊢
            by_cases hemp : di.isEmpty = true
            · simp only [if_pos hemp]
            · simp only [if_neg hemp] at hs ⊢
              cases hnb : get_all_neighboring_arcs cons i with
              | none => simp only [hnb]
              | some nbrs =>
                simp only [hnb] at hs ⊢
                exact ih m2 asg2 _ (by omega) hs

/-- The worklist of `inference` drains: the fuel
`totalSize asg * (consSize cons + 1) + queue.length + 1` always completes
the run (every revision that re-enqueues arcs strictly shrinks the total
domain size, and one revision enqueues at most `consSize cons` arcs). -/
theorem inferenceFuel_terminates (cons : Cons V D) :
    ∀ (k : Nat) (asg : Asg V D) (q : List (V × V)),
      totalSize asg * (consSize cons + 1) + q.length ≤ k →
      (inferenceFuel cons (k + 1) asg q).isSome = true := by
  intro k
  induction k using Nat.strong_induction_on with
  | _ k ih =>
    intro asg q hk
    cases q with
    | nil => rw [inferenceFuel]; rfl
    | cons a rest =>
      obtain ⟨i, j⟩ := a
      rw [inferenceFuel]
      cases hrv : revise cons asg i j with
      | none => simp only [hrv]; rfl
      | some p =>
        obtain ⟨r, asg2⟩ := p
        cases r with
        | false =>
          have heq : asg2 = asg := (revise_spec hrv).1 rfl
          subst heq
          simp only [hrv]
          obtain ⟨k2, rfl⟩ : ∃ k2, k = k2 + 1 := by
            refine ⟨k - 1, ?_⟩
            simp only [List.length_cons] at hk
            omega
          apply ih k2 (by omega) asg2 rest
          simp only [List.length_cons] at hk
          omega
        | true =>
          have hlt : totalSize asg2 < totalSize asg := (revise_spec hrv).2 rfl
          simp only [hrv]
          split
          · rfl
          next di hl =>
            split
            · rfl
            next hemp =>
              split
              · rfl
              next nbrs hnb =>
                have hnlen : nbrs.length ≤ consSize cons := by
                  rw [get_all_neighboring_arcs] at hnb
                  cases hlc : lookupD cons i with
                  | none => rw [hlc] at hnb; cases hnb
                  | some mi =>
                    rw [hlc] at hnb
                    simp only [Option.map_some', Option.some.injEq] at hnb
                    have := consSize_lookup_le hlc
                    rw [← hnb]
                    simpa using this
                have hflen :
                    (nbrs.filter (fun k => decide (k.1 ≠ j))).length ≤ nbrs.length :=
                  List.length_filter_le _ _
                set q2 := rest ++ nbrs.filter (fun k => decide (k.1 ≠ j)) with hq2
                have hq2len : q2.length ≤ rest.length + consSize cons := by
                  rw [hq2]
                  simp only [List.length_append]
                  omega
                set T := totalSize asg with hT
                set S := consSize cons with hS
                set T2 := totalSize asg2 with hT2
                have hTpos : 1 ≤ T := by omega
                have hmul : T2 * (S + 1) ≤ (T - 1) * (S + 1) :=
                  Nat.mul_le_mul_right _ (by omega)
                have hsucc : (T - 1) * (S + 1) + (S + 1) = T * (S + 1) := by
                  have hT1 : (T - 1) + 1 = T := by omega
                  calc (T - 1) * (S + 1) + (S + 1) = ((T - 1) + 1) * (S + 1) := by
                        rw [Nat.succ_mul]
                    _ = T * (S + 1) := by rw [hT1]
                simp only [List.length_cons] at hk
                have hPhi : T2 * (S + 1) + q2.length < k := by omega
                obtain ⟨k2, rfl⟩ : ∃ k2, k = k2 + 1 := ⟨k - 1, by omega⟩
                have hrec := ih (T2 * (S + 1) + q2.length) (by omega) asg2 q2 (le_refl _)
                have hmono := inferenceFuel_mono cons (T2 * (S + 1) + q2.length + 1)
                  (k2 + 1) asg2 q2 (by omega) hrec
                rw [hmono]
                exact hrec

end TerminationLemmas

/-- The fuel bound used by the `inference` wrapper always completes the
worklist run, so the wrapper returns exactly the completed run's result and
its fuel-exhaustion branch is unreachable. -/
theorem inference_complete {V D : Type} [DecidableEq V] [DecidableEq D]
    (cons : Cons V D) (asg : Asg V D) (queue : List (V × V)) :
    inferenceFuel cons (infFuelBound cons asg queue) asg queue
      = some (inference cons asg queue) := by
  have h := inferenceFuel_terminates cons
    (totalSize asg * (consSize cons + 1) + queue.length) asg queue (le_refl _)
  rw [inference]
  cases hx : inferenceFuel cons (infFuelBound cons asg queue) asg queue with
  | none =>
    rw [infFuelBound] at hx
    rw [hx] at h
    cases h
  | some r => rfl

/-- C8: `inference` terminates on every input: for every constraint store,
assignment and finite initial queue of declared arcs, the worklist loop
completes within a computable number of iterations (each revision that
re-enqueues arcs strictly shrinks the monotonically decreasing total domain
size, and arcs are re-enqueued only when a domain actually changed), so
some finite fuel makes the fuel-bounded run return a result. -/
theorem c8_inference_terminates {V D : Type} [DecidableEq V] [DecidableEq D]
    (cons : Cons V D) (asg : Asg V D) (queue : List (V × V))
    (_h : ∀ a ∈ queue, a ∈ get_all_arcs cons) :
    ∃ n, (inferenceFuel cons n asg queue).isSome = true :=
  ⟨infFuelBound cons asg queue,
    inferenceFuel_terminates cons
      (totalSize asg * (consSize cons + 1) + queue.length) asg queue (le_refl _)⟩

theorem c8_inference_terminates_witness :
    (∀ a ∈ get_all_arcs cspAsym3.constraints, a ∈ get_all_arcs cspAsym3.constraints) ∧
    ∃ n, (inferenceFuel cspAsym3.constraints n cspAsym3.domains
        (get_all_arcs cspAsym3.constraints)).isSome = true :=
  ⟨fun _ ha => ha,
    c8_inference_terminates cspAsym3.constraints cspAsym3.domains
      (get_all_arcs cspAsym3.constraints) (fun _ ha => ha)⟩

section FuelIrrelevance

variable {V D : Type} [DecidableEq V] [DecidableEq D]

/-- The iteration bound of `reviseLoop` is exact: any two bounds above the
number of remaining positions give the same run, so the `di.length + 1`
passed by `revise` behaves as the unbounded Python loop. -/
theorem reviseLoop_fuel_irrelevant (sameVar : Bool) (dj? : Option (List D))
    (pairs? : Option (List (D × D))) :
    ∀ (f1 f2 idx : Nat) (di : List D) (revised : Bool),
      di.length - idx < f1 → di.length - idx < f2 →
      reviseLoop sameVar dj? pairs? f1 idx di revised
        = reviseLoop sameVar dj? pairs? f2 idx di revised := by
  intro f1
  induction f1 with
  | zero => intro f2 idx di revised h1 h2; exact absurd h1 (Nat.not_lt_zero _)
  | succ f1 ih =>
    intro f2 idx di revised h1 h2
    obtain ⟨f3, rfl⟩ : ∃ f3, f2 = f3 + 1 := ⟨f2 - 1, by omega⟩
    rw [reviseLoop, reviseLoop]
    by_cases hlt : idx < di.length
    · rw [dif_pos hlt, dif_pos hlt]
      have hel := List.length_erase_of_mem (di.get_mem idx hlt)
      cases hsv : (if sameVar = true then some di else dj?) with
      | none => rfl
      | some dj =>
        cases dj with
        | nil => exact ih f3 (idx + 1) _ true (by omega) (by omega)
        | cons y ys =>
          cases pairs? with
          | none => rfl
          | some pairs =>
            show (if ((y :: ys).any fun z =>
                    decide ((di.get ⟨idx, hlt⟩, z) ∈ pairs)) = true
                  then reviseLoop sameVar dj? (some pairs) f1 (idx + 1) di revised
                  else reviseLoop sameVar dj? (some pairs) f1 (idx + 1)
                    (di.erase (di.get ⟨idx, hlt⟩)) true)
                = (if ((y :: ys).any fun z =>
                    decide ((di.get ⟨idx, hlt⟩, z) ∈ pairs)) = true
                  then reviseLoop sameVar dj? (some pairs) f3 (idx + 1) di revised
                  else reviseLoop sameVar dj? (some pairs) f3 (idx + 1)
                    (di.erase (di.get ⟨idx, hlt⟩)) true)
            by_cases hany :
                ((y :: ys).any fun z => decide ((di.get ⟨idx, hlt⟩, z) ∈ pairs)) = true
            · rw [if_pos hany, if_pos hany]
              exact ih f3 (idx + 1) di revised (by omega) (by omega)
            · rw [if_neg hany, if_neg hany]
              exact ih f3 (idx + 1) _ true (by omega) (by omega)
    · rw [dif_neg hlt, dif_neg hlt]

end FuelIrrelevance

section NoConstraintLemmas

variable {V D A : Type} [DecidableEq V] [DecidableEq D]

theorem get_all_arcs_nil {cons : Cons V D} (h : ∀ e ∈ cons, e.2 = []) :
    get_all_arcs cons = [] := by
  induction cons with
  | nil => rfl
  | cons e rest ih =>
    rw [get_all_arcs] at *
    rw [List.flatMap_cons, h e (List.mem_cons_self _ _)]
    simp only [List.map_nil, List.nil_append]
    exact ih (fun e he => h e (List.mem_cons_of_mem _ he))

theorem inference_nil (cons : Cons V D) (asg : Asg V D) :
    inference cons asg [] = PyResult.ok (true, asg) := by
  rw [inference]
  have hb : infFuelBound cons asg [] =
      (totalSize asg * (consSize cons + 1) + 0) + 1 := by
    rw [infFuelBound]
    rfl
  rw [hb, inferenceFuel]

theorem consistencyLoop_empty (var : V) (value : D) (l : Asg V D) :
    consistencyLoop (some ([] : List (V × List (D × D)))) var value l
      = some true := by
  induction l with
  | nil => rw [consistencyLoop]
  | cons other rest ih =>
    rw [consistencyLoop]
    by_cases h : other.1 = var
    · rw [if_pos h]; exact ih
    · rw [if_neg h]; exact ih

theorem lookupD_of_mem_nodup {d : List (V × A)} {k : V} {v : A}
    (hmem : (k, v) ∈ d) (hnd : (d.map Prod.fst).Nodup) : lookupD d k = some v := by
  induction d with
  | nil => cases hmem
  | cons e rest ih =>
    rw [List.map_cons, List.nodup_cons] at hnd
    rcases List.mem_cons.mp hmem with heq | hmem2
    · cases heq.symm
      simp [lookupD]
    · have hk : ¬(k = e.1) := by
        intro hkk
        exact hnd.1 (hkk ▸ (List.mem_map.mpr ⟨(k, v), hmem2, rfl⟩))
      rw [lookupD, if_neg hk]
      exact ih hmem2 hnd.2

theorem mem_setD {d : List (V × A)} {k : V} {v : A} {e : V × A}
    (h : e ∈ setD d k v) : e = (k, v) ∨ e ∈ d := by
  induction d with
  | nil =>
    rw [setD] at h
    rcases List.mem_cons.mp h with h1 | h2
    · exact Or.inl h1
    · cases h2
  | cons e0 rest ih =>
    rw [setD] at h
    by_cases hk : k = e0.1
    · rw [if_pos hk] at h
      rcases List.mem_cons.mp h with h1 | h2
      · exact Or.inl h1
      · exact Or.inr (List.mem_cons_of_mem _ h2)
    · rw [if_neg hk] at h
      rcases List.mem_cons.mp h with h1 | h2
      · exact Or.inr (h1 ▸ List.mem_cons_self _ _)
      · rcases ih h2 with h3 | h4
        · exact Or.inl h3
        · exact Or.inr (List.mem_cons_of_mem _ h4)

theorem keys_setD {d : List (V × A)} {k : V} (v : A)
    (h : k ∈ d.map Prod.fst) :
    (setD d k v).map Prod.fst = d.map Prod.fst := by
  induction d with
  | nil => cases h
  | cons e rest ih =>
    rw [setD]
    by_cases hk : k = e.1
    · rw [if_pos hk]
      simp [hk]
    · rw [if_neg hk]
      rw [List.map_cons, List.map_cons]
      have h2 : k ∈ rest.map Prod.fst := by
        rw [List.map_cons] at h
        rcases List.mem_cons.mp h with h1 | h2
        · exact absurd h1 hk
        · exact h2
      rw [ih h2]

theorem undecidedCount_setD {asg : Asg V D} {k : V} {dv : List D} (x : D)
    (hnd : (asg.map Prod.fst).Nodup) (hmem : (k, dv) ∈ asg)
    (hlen : 1 < dv.length) :
    undecidedCount (setD asg k [x]) + 1 = undecidedCount asg := by
  induction asg with
  | nil => cases hmem
  | cons e rest ih =>
    rw [List.map_cons, List.nodup_cons] at hnd
    rw [setD]
    by_cases hk : k = e.1
    · rw [if_pos hk]
      have he : e = (k, dv) := by
        rcases List.mem_cons.mp hmem with h1 | h2
        · exact h1.symm
        · exact absurd (hk ▸ List.mem_map.mpr ⟨(k, dv), h2, rfl⟩) hnd.1
      rw [he]
      simp only [undecidedCount, List.countP_cons]
      have h1 : decide (1 < ((k, [x]) : V × List D).2.length) = false := by
        simp
      have h2 : decide (1 < ((k, dv) : V × List D).2.length) = true := by
        simpa using hlen
      rw [h1, h2]
      simp
    · rw [if_neg hk]
      have hmem2 : (k, dv) ∈ rest := by
        rcases List.mem_cons.mp hmem with h1 | h2
        · exact absurd (congrArg Prod.fst h1.symm).symm hk
        · exact h2
      simp only [undecidedCount, List.countP_cons]
      have := ih hnd.2 hmem2
      simp only [undecidedCount] at this
      omega

theorem firsts_setD {asg : Asg V D} {k : V} {dv : List D} {newv : List D}
    (hnd : (asg.map Prod.fst).Nodup) (hmem : (k, dv) ∈ asg)
    (hnew : newv.take 1 = dv.take 1) :
    (setD asg k newv).map (fun e => (e.1, e.2.take 1))
      = asg.map (fun e => (e.1, e.2.take 1)) := by
  induction asg with
  | nil => cases hmem
  | cons e rest ih =>
    rw [List.map_cons, List.nodup_cons] at hnd
    rw [setD]
    by_cases hk : k = e.1
    · rw [if_pos hk]
      have he : e = (k, dv) := by
        rcases List.mem_cons.mp hmem with h1 | h2
        · exact h1.symm
        · exact absurd (hk ▸ List.mem_map.mpr ⟨(k, dv), h2, rfl⟩) hnd.1
      rw [he, List.map_cons, List.map_cons]
      show ((k, newv.take 1) :: _) = ((k, dv.take 1) :: _)
      rw [hnew]
    · rw [if_neg hk]
      have hmem2 : (k, dv) ∈ rest := by
        rcases List.mem_cons.mp hmem with h1 | h2
        · exact absurd (congrArg Prod.fst h1.symm).symm hk
        · exact h2
      rw [List.map_cons, List.map_cons, ih hnd.2 hmem2]

theorem firsts_eq_self {asg : Asg V D} (h : ∀ e ∈ asg, e.2.length = 1) :
    asg.map (fun e => (e.1, e.2.take 1)) = asg := by
  induction asg with
  | nil => rfl
  | cons e rest ih =>
    rw [List.map_cons]
    have h1 : e.2.take 1 = e.2 :=
      List.take_of_length_le (le_of_eq (h e (List.mem_cons_self _ _)))
    rw [h1, ih (fun e2 he2 => h e2 (List.mem_cons_of_mem _ he2))]

theorem take_one_eq_get_zero {l : List D} (h : 0 < l.length) :
    l.take 1 = [l.get ⟨0, h⟩] := by
  cases l with
  | nil => simp at h
  | cons a as => rfl

theorem undecidedCount_le_totalSize (asg : Asg V D) :
    undecidedCount asg ≤ totalSize asg := by
  induction asg with
  | nil => simp [undecidedCount, totalSize]
  | cons e rest ih =>
    rw [totalSize_cons]
    simp only [undecidedCount, List.countP_cons] at *
    by_cases hp : decide (1 < e.2.length) = true
    · rw [hp]
      have h2 : 1 ≤ e.2.length := by
        have := of_decide_eq_true hp
        omega
      have h3 : (if (true : Bool) = true then 1 else 0) = 1 := rfl
      rw [h3]
      omega
    · rw [Bool.not_eq_true] at hp
      rw [hp]
      have h3 : (if (false : Bool) = true then 1 else 0) = 0 := rfl
      rw [h3]
      omega

end NoConstraintLemmas

theorem map_isEmpty_false {α β : Type} {l : List α} (f : α → β) (h : l ≠ []) :
    (l.map f).isEmpty = false := by
  cases l with
  | nil => exact absurd rfl h
  | cons a as => rfl

/-- On a constraint store with no declared constraints, `backtrack` walks the
undecided variables in order, always accepts the first candidate value, and
returns the assignment of first values. -/
theorem backtrackFuel_no_constraints {V D : Type} [DecidableEq V]
    [DecidableEq D] {cons : Cons V D} (hconsE : ∀ e ∈ cons, e.2 = []) :
    ∀ (fuel : Nat) (asg : Asg V D),
      asg ≠ [] →
      (asg.map Prod.fst).Nodup →
      (∀ e ∈ asg, e.2 ≠ []) →
      (∀ v ∈ asg.map Prod.fst, lookupD cons v = some []) →
      undecidedCount asg < fuel →
      ∃ fr, backtrackFuel cons fuel asg
        = some (PyResult.ok (some (asg.map (fun e => (e.1, e.2.take 1))), fr)) := by
  intro fuel
  induction fuel with
  | zero => intro asg _ _ _ _ hu; exact absurd hu (Nat.not_lt_zero _)
  | succ fuel ih =>
    intro asg hne hnd hdom hkeys hu
    rw [backtrackFuel]
    by_cases hall : asg.all (fun e => decide (e.2.length = 1)) = true
    · rw [if_pos hall]
      refine ⟨asg, ?_⟩
      have h1 : ∀ e ∈ asg, e.2.length = 1 := by
        intro e he
        have hd := List.all_eq_true.mp hall e he
        exact of_decide_eq_true hd
      rw [firsts_eq_self h1]
    · rw [if_neg hall]
      have hallf : asg.all (fun e => decide (e.2.length = 1)) = false := by
        simpa using hall
      obtain ⟨e1, he1, hne1⟩ := List.all_eq_false.mp hallf
      have hlen1 : 1 < e1.2.length := by
        have h0 : e1.2 ≠ [] := hdom e1 he1
        have h2 : e1.2.length ≠ 1 := fun hh => hne1 (decide_eq_true hh)
        have h3 : 0 < e1.2.length := List.length_pos.mpr h0
        omega
      have hfindS : (asg.find? (fun e => decide (1 < e.2.length))).isSome = true := by
        rw [List.find?_isSome]
        exact ⟨e1, he1, decide_eq_true hlen1⟩
      obtain ⟨e0, hfind⟩ := Option.isSome_iff_exists.mp hfindS
      have he0mem : e0 ∈ asg := List.mem_of_find?_eq_some hfind
      have hp0 := List.find?_some hfind
      have he0len : 1 < e0.2.length := of_decide_eq_true hp0
      have hsel : select_unassigned_variable asg = some e0.1 := by
        rw [select_unassigned_variable, hfind]
        rfl
      have hlook : lookupD asg e0.1 = some e0.2 :=
        lookupD_of_mem_nodup he0mem hnd
      simp only [hsel, hlook]
      rw [backtrackLoop]
      have h0lt : 0 < e0.2.length := by omega
      rw [dif_pos h0lt]
      have hkey : lookupD cons e0.1 = some [] :=
        hkeys e0.1 (List.mem_map.mpr ⟨e0, he0mem, rfl⟩)
      have harcs : get_all_arcs cons = [] := get_all_arcs_nil hconsE
      simp only [hkey, consistencyLoop_empty, harcs, inference_nil]
      have hkeys1 : (setD asg e0.1 [e0.2.get ⟨0, h0lt⟩]).map Prod.fst
          = asg.map Prod.fst :=
        keys_setD _ (List.mem_map.mpr ⟨e0, he0mem, rfl⟩)
      have hne1' : setD asg e0.1 [e0.2.get ⟨0, h0lt⟩] ≠ [] := by
        intro hnil
        apply hne
        have h4 := congrArg (List.map (Prod.fst : V × List D → V)) hnil
        rw [hkeys1] at h4
        simpa using h4
      have hnd1 : ((setD asg e0.1 [e0.2.get ⟨0, h0lt⟩]).map Prod.fst).Nodup := by
        rw [hkeys1]; exact hnd
      have hdom1 : ∀ e ∈ setD asg e0.1 [e0.2.get ⟨0, h0lt⟩], e.2 ≠ [] := by
        intro e he
        rcases mem_setD he with h1 | h2
        · rw [h1]; simp
        · exact hdom e h2
      have hkeys2 : ∀ v ∈ (setD asg e0.1 [e0.2.get ⟨0, h0lt⟩]).map Prod.fst,
          lookupD cons v = some [] := by
        rw [hkeys1]; exact hkeys
      have hu1 : undecidedCount (setD asg e0.1 [e0.2.get ⟨0, h0lt⟩]) < fuel := by
        have h5 := undecidedCount_setD (e0.2.get ⟨0, h0lt⟩) hnd he0mem he0len
        omega
      obtain ⟨fr2, hrec⟩ := ih (setD asg e0.1 [e0.2.get ⟨0, h0lt⟩])
        hne1' hnd1 hdom1 hkeys2 hu1
      simp only [hrec]
      have htru : truthy (some ((setD asg e0.1 [e0.2.get ⟨0, h0lt⟩]).map
          (fun e => (e.1, e.2.take 1)))) = true := by
        rw [truthy, map_isEmpty_false _ hne1']
        rfl
      rw [if_pos htru]
      refine ⟨setD asg e0.1 [e0.2.get ⟨0, h0lt⟩], ?_⟩
      have hf : (setD asg e0.1 [e0.2.get ⟨0, h0lt⟩]).map (fun e => (e.1, e.2.take 1))
          = asg.map (fun e => (e.1, e.2.take 1)) := by
        apply firsts_setD hnd he0mem
        rw [take_one_eq_get_zero h0lt]
        rfl
      rw [hf]
      exact if_pos trivial

theorem cspFree_reachable : cspFree_build = cspFree := by rfl

/-- C9: on any CSP instance with at least one variable, non-empty initial
domains, and no declared constraints (every registered variable has an empty
constraint dict and the store holds no pair lists at all),
`backtracking_search()` returns the assignment mapping every variable to the
singleton list containing the first value of its initial domain. -/
theorem c9_no_constraints_returns_first_values {V D : Type} [DecidableEq V]
    [DecidableEq D] (csp : CSP V D)
    (hvars : csp.vars = csp.domains.map Prod.fst)
    (hne : csp.vars ≠ [])
    (hnd : csp.vars.Nodup)
    (hdom : ∀ e ∈ csp.domains, e.2 ≠ [])
    (hcons : ∀ v ∈ csp.vars, lookupD csp.constraints v = some [])
    (hconsE : ∀ e ∈ csp.constraints, e.2 = []) :
    backtracking_search csp
      = some (PyResult.ok (some (csp.domains.map (fun e => (e.1, e.2.take 1))))) := by
  rw [backtracking_search]
  have harcs : get_all_arcs csp.constraints = [] := get_all_arcs_nil hconsE
  simp only [harcs, inference_nil]
  have hdn : csp.domains ≠ [] := by
    intro h
    apply hne
    rw [hvars, h]
    rfl
  have hnd2 : (csp.domains.map Prod.fst).Nodup := hvars ▸ hnd
  have hkeys : ∀ v ∈ csp.domains.map Prod.fst,
      lookupD csp.constraints v = some [] := by
    rw [← hvars]; exact hcons
  have hu : undecidedCount csp.domains < btFuel csp := by
    rw [btFuel]
    have := undecidedCount_le_totalSize csp.domains
    omega
  obtain ⟨fr, hbt⟩ := backtrackFuel_no_constraints hconsE (btFuel csp)
    csp.domains hdn hnd2 hdom hkeys hu
  simp only [hbt]

theorem c9_no_constraints_returns_first_values_witness :
    (cspFree.vars = cspFree.domains.map Prod.fst ∧ cspFree.vars ≠ [] ∧
      cspFree.vars.Nodup ∧ (∀ e ∈ cspFree.domains, e.2 ≠ []) ∧
      (∀ v ∈ cspFree.vars, lookupD cspFree.constraints v = some []) ∧
      (∀ e ∈ cspFree.constraints, e.2 = [])) ∧
    backtracking_search cspFree
      = some (PyResult.ok (some (cspFree.domains.map (fun e => (e.1, e.2.take 1))))) :=
  ⟨⟨by decide, by decide, by decide, by decide, by decide, by decide⟩,
    c9_no_constraints_returns_first_values cspFree (by decide) (by decide)
      (by decide) (by decide) (by decide) (by decide)⟩

section HeapFrame

variable {V D : Type} [DecidableEq V] [DecidableEq D]

theorem presFrom_refl (n : Nat) (st : HStore D) : presFrom n st st :=
  ⟨fun _ _ => rfl, le_refl _⟩

theorem presFrom_trans {n : Nat} {s1 s2 s3 : HStore D}
    (h1 : presFrom n s1 s2) (h2 : presFrom n s2 s3) : presFrom n s1 s3 :=
  ⟨fun r hr => (h2.1 r hr).trans (h1.1 r hr), h1.2.trans h2.2⟩

theorem presFrom_writeS (n : Nat) {r : Nat} (st : HStore D) (l : List D)
    (h : n ≤ r) : presFrom n st (writeS st r l) := by
  constructor
  · intro q hq
    rw [readS, readS, writeS, List.getD_eq_getElem?_getD,
      List.getD_eq_getElem?_getD, List.getElem?_set_ne (by omega)]
  · rw [writeS, List.length_set]

theorem presFrom_append (n : Nat) (st : HStore D) (l : List D)
    (h : n ≤ st.length) : presFrom n st (st ++ [l]) := by
  constructor
  · intro q hq
    rw [readS, readS, List.getD_eq_getElem?_getD, List.getD_eq_getElem?_getD,
      List.getElem?_append]
    rw [if_pos (by omega)]
  · simp

theorem okRefs_lookup {n : Nat} {hasg : HAsg V} {v : V} {r : Nat}
    (hok : okRefs n hasg) (h : lookupD hasg v = some r) : n ≤ r :=
  hok _ (lookupD_mem h)

theorem okRefs_setD {n : Nat} {hasg : HAsg V} {v : V} {r : Nat}
    (hok : okRefs n hasg) (h : n ≤ r) : okRefs n (setD hasg v r) := by
  intro e he
  rcases mem_setD he with h1 | h2
  · rw [h1]; exact h
  · exact hok e h2

theorem deepcopyH_spec (n : Nat) (hasg : HAsg V) :
    ∀ (st : HStore D), n ≤ st.length →
      presFrom n st (deepcopyH hasg st).2 ∧ okRefs n (deepcopyH hasg st).1 := by
  induction hasg with
  | nil =>
    intro st h
    rw [deepcopyH]
    exact ⟨presFrom_refl n st, fun e he => absurd he (List.not_mem_nil e)⟩
  | cons e rest ih =>
    intro st h
    rw [deepcopyH]
    have hlen : (st ++ [readS st e.2]).length = st.length + 1 := by simp
    have h2 := ih (st ++ [readS st e.2]) (by omega)
    constructor
    · exact presFrom_trans (presFrom_append n st _ h) h2.1
    · intro e2 he2
      rcases List.mem_cons.mp he2 with h3 | h4
      · rw [h3]; exact h
      · exact h2.2 e2 h4

theorem reviseLoopH_frame (n : Nat) (hasg : HAsg V) (j : V)
    (pairs? : Option (List (D × D))) (ri : Nat) (hri : n ≤ ri) :
    ∀ (fuel idx : Nat) (revised : Bool) (st : HStore D),
      presFrom n st (reviseLoopH hasg j pairs? ri fuel idx revised st).2 := by
  intro fuel
  induction fuel with
  | zero => intro idx revised st; rw [reviseLoopH]; exact presFrom_refl _ _
  | succ fuel ih =>
    intro idx revised st
    rw [reviseLoopH]
    repeat' split
    all_goals
      first
      | exact presFrom_refl _ _
      | exact ih _ _ _
      | exact presFrom_trans (presFrom_writeS n st _ hri) (ih _ _ _)

theorem reviseH_frame (n : Nat) (cons : Cons V D) (hasg : HAsg V) (i j : V)
    (hok : okRefs n hasg) (st : HStore D) (fuel : Nat) :
    presFrom n st (reviseH cons hasg i j st fuel).2 := by
  rw [reviseH]
  split
  · exact presFrom_refl _ _
  next ri hri =>
    exact reviseLoopH_frame n hasg j _ ri (okRefs_lookup hok hri) fuel 0 false st

theorem inferenceH_frame (n : Nat) (cons : Cons V D) (hasg : HAsg V)
    (hok : okRefs n hasg) :
    ∀ (fuel : Nat) (queue : List (V × V)) (st : HStore D),
      presFrom n st (inferenceH cons hasg fuel queue st).2 := by
  intro fuel
  induction fuel with
  | zero => intro queue st; rw [inferenceH]; exact presFrom_refl _ _
  | succ fuel ih =>
    intro queue st
    cases queue with
    | nil => rw [inferenceH]; exact presFrom_refl _ _
    | cons a rest =>
      obtain ⟨i, j⟩ := a
      rw [inferenceH]
      split
      next st1 heq =>
        have hr := reviseH_frame n cons hasg i j hok st fuel
        rw [heq] at hr
        exact hr
      next st1 heq =>
        have hr := reviseH_frame n cons hasg i j hok st fuel
        rw [heq] at hr
        exact hr
      next revised st1 heq =>
        have hr : presFrom n st st1 := by
          have hr0 := reviseH_frame n cons hasg i j hok st fuel
          rw [heq] at hr0
          exact hr0
        repeat' split
        all_goals
          first
          | exact hr
          | exact presFrom_trans hr (ih _ st1)

theorem removeThenH_frame (n : Nat) (hasg : HAsg V) (var : V) (value : D)
    (st : HStore D) (k : HStore D → HRes (Option (HAsg V)) × HStore D)
    (hok : okRefs n hasg)
    (hk : ∀ st2 : HStore D, n ≤ st2.length → presFrom n st2 (k st2).2)
    (hst : n ≤ st.length) :
    presFrom n st (removeThenH hasg var value st k).2 := by
  rw [removeThenH]
  split
  · exact presFrom_refl _ _
  next rv hrv =>
    split
    · have hwr := presFrom_writeS n st ((readS st rv).erase value)
        (okRefs_lookup hok hrv)
      have hlen : n ≤ (writeS st rv ((readS st rv).erase value)).length := by
        have := hwr.2
        omega
      exact presFrom_trans hwr (hk _ hlen)
    · exact presFrom_refl _ _

theorem backtrackLoopH_frame (n : Nat) (cons : Cons V D)
    (recur : HAsg V → HStore D → HRes (Option (HAsg V)) × HStore D)
    (hrec : ∀ (hasg2 : HAsg V) (st2 : HStore D), okRefs n hasg2 →
      n ≤ st2.length → presFrom n st2 (recur hasg2 st2).2)
    (var : V) (valRef : Nat) (infFuel : Nat) :
    ∀ (fuel idx : Nat) (hasg : HAsg V) (st : HStore D),
      okRefs n hasg → n ≤ st.length →
      presFrom n st (backtrackLoopH cons recur var valRef infFuel fuel idx hasg st).2 := by
  intro fuel
  induction fuel with
  | zero =>
    intro idx hasg st _ _
    rw [backtrackLoopH]
    exact presFrom_refl _ _
  | succ fuel ih =>
    intro idx hasg st hok hst
    rw [backtrackLoopH]
    split
    case isFalse => exact presFrom_refl _ _
    case isTrue h =>
      split
      · exact presFrom_refl _ _
      · exact removeThenH_frame n hasg var _ st _ hok
          (fun st2 hst2 => ih (idx + 1) hasg st2 hok hst2) hst
      · have hok1 : okRefs n (setD hasg var st.length) := okRefs_setD hok hst
        have happ : presFrom n st (st ++ [[(readS st valRef).get ⟨idx, h⟩]]) :=
          presFrom_append n st _ hst
        have hlapp : n ≤ (st ++ [[(readS st valRef).get ⟨idx, h⟩]]).length := by
          have := happ.2
          omega
        have hdc := deepcopyH_spec n (setD hasg var st.length)
          (st ++ [[(readS st valRef).get ⟨idx, h⟩]]) hlapp
        have hpre2 : presFrom n st
            (deepcopyH (setD hasg var st.length)
              (st ++ [[(readS st valRef).get ⟨idx, h⟩]])).2 :=
          presFrom_trans happ hdc.1
        split
        next st3 heq =>
          have hi := inferenceH_frame n cons _ hdc.2 infFuel (get_all_arcs cons)
            (deepcopyH (setD hasg var st.length)
              (st ++ [[(readS st valRef).get ⟨idx, h⟩]])).2
          rw [heq] at hi
          exact presFrom_trans hpre2 hi
        next st3 heq =>
          have hi := inferenceH_frame n cons _ hdc.2 infFuel (get_all_arcs cons)
            (deepcopyH (setD hasg var st.length)
              (st ++ [[(readS st valRef).get ⟨idx, h⟩]])).2
          rw [heq] at hi
          exact presFrom_trans hpre2 hi
        next infOk st3 heq =>
          have hi := inferenceH_frame n cons _ hdc.2 infFuel (get_all_arcs cons)
            (deepcopyH (setD hasg var st.length)
              (st ++ [[(readS st valRef).get ⟨idx, h⟩]])).2
          rw [heq] at hi
          have hpre3 : presFrom n st st3 := presFrom_trans hpre2 hi
          have hst3 : n ≤ st3.length := by
            have := hpre3.2
            omega
          split
          · split
            next st4 heq2 =>
              have hr := hrec _ st3 hdc.2 hst3
              rw [heq2] at hr
              exact presFrom_trans hpre3 hr
            next st4 heq2 =>
              have hr := hrec _ st3 hdc.2 hst3
              rw [heq2] at hr
              exact presFrom_trans hpre3 hr
            next result st4 heq2 =>
              have hr := hrec _ st3 hdc.2 hst3
              rw [heq2] at hr
              have hpre4 : presFrom n st st4 := presFrom_trans hpre3 hr
              have hst4 : n ≤ st4.length := by
                have := hpre4.2
                omega
              split
              · exact hpre4
              · exact presFrom_trans hpre4
                  (removeThenH_frame n (setD hasg var st.length) var _ st4 _ hok1
                    (fun st5 hst5 => ih (idx + 1) _ st5 hok1 hst5) hst4)
          · exact presFrom_trans hpre3
              (removeThenH_frame n (setD hasg var st.length) var _ st3 _ hok1
                (fun st5 hst5 => ih (idx + 1) _ st5 hok1 hst5) hst3)

theorem backtrackH_frame (n : Nat) (cons : Cons V D) :
    ∀ (fuel : Nat) (hasg : HAsg V) (st : HStore D),
      okRefs n hasg → n ≤ st.length →
      presFrom n st (backtrackH cons fuel hasg st).2 := by
  intro fuel
  induction fuel with
  | zero =>
    intro hasg st _ _
    rw [backtrackH]
    exact presFrom_refl _ _
  | succ fuel ih =>
    intro hasg st hok hst
    rw [backtrackH]
    split
    · exact presFrom_refl _ _
    · split
      · exact presFrom_refl _ _
      next var hvar =>
        split
        · exact presFrom_refl _ _
        next valRef hvr =>
          exact backtrackLoopH_frame n cons (backtrackH cons fuel)
            (fun hasg2 st2 ho hs => ih hasg2 st2 ho hs) var valRef fuel fuel 0
            hasg st hok hst

theorem backtracking_searchH_frame (cons : Cons V D) (domRefs : HAsg V)
    (st : HStore D) (fuel : Nat) :
    presFrom st.length st (backtracking_searchH cons domRefs st fuel).2 := by
  rw [backtracking_searchH]
  have hdc := deepcopyH_spec st.length domRefs st (le_refl _)
  split
  next st2 heq =>
    have hi := inferenceH_frame st.length cons (deepcopyH domRefs st).1 hdc.2
      fuel (get_all_arcs cons) (deepcopyH domRefs st).2
    rw [heq] at hi
    exact presFrom_trans hdc.1 hi
  next st2 heq =>
    have hi := inferenceH_frame st.length cons (deepcopyH domRefs st).1 hdc.2
      fuel (get_all_arcs cons) (deepcopyH domRefs st).2
    rw [heq] at hi
    exact presFrom_trans hdc.1 hi
  next x st2 heq =>
    have hi := inferenceH_frame st.length cons (deepcopyH domRefs st).1 hdc.2
      fuel (get_all_arcs cons) (deepcopyH domRefs st).2
    rw [heq] at hi
    have hpre2 : presFrom st.length st st2 := presFrom_trans hdc.1 hi
    have hb := backtrackH_frame st.length cons fuel (deepcopyH domRefs st).1
      st2 hdc.2 hpre2.2
    split
    next r2 st3 heq2 =>
      rw [heq2] at hb
      exact presFrom_trans hpre2 hb
    next st3 heq2 =>
      rw [heq2] at hb
      exact presFrom_trans hpre2 hb
    next st3 heq2 =>
      rw [heq2] at hb
      exact presFrom_trans hpre2 hb

end HeapFrame

/-- C10: at heap level, `backtracking_search()` never mutates any object
that existed before the call: for every store of list objects holding (among
anything else) the instance's own domain lists `domRefs` and constraint pair
lists, every pre-existing reference reads the same contents after the search
(success, failure, exception or fuel exhaustion), and the store only grew —
the root deep copy of `self.domains` and the per-branch deep copies confine
every write of the search to objects it allocated itself.  `self.variables`
and `self.constraints` are carried as pure values here and are, a fortiori,
unchanged. -/
theorem c10_search_preserves_existing_objects {V D : Type} [DecidableEq V]
    [DecidableEq D] (cons : Cons V D) (domRefs : HAsg V) (st : HStore D)
    (fuel : Nat) :
    (∀ r < st.length,
        readS (backtracking_searchH cons domRefs st fuel).2 r = readS st r) ∧
    st.length ≤ (backtracking_searchH cons domRefs st fuel).2.length :=
  backtracking_searchH_frame cons domRefs st fuel
